import Mathlib

/-!
Verification development for the royalcat/loki log-shipping client.

The Go sources embedded here:
  * src/client.go — batching client (labelsMapToString, the run worker loop,
    send, Flush/Shutdown);
  * src/slog/handler.go — two historical variants of the slog handler
    (labelBuilder with withAttrs / withGroup / copy, the default
    classification policies, group-splitter resolution).

Go maps are embedded as association lists (the worker and builder code only
ever mutates maps it has itself just allocated or cloned, so value semantics
is faithful); Go slices, whose backing-array sharing matters for the builder
group path, are embedded with an explicit heap of arrays and capacities.
-/

namespace Loki

/-- Association-list lookup, the embedding of a Go map read m[k]. -/
def alookup {β : Type} (k : String) : List (String × β) → Option β
  | [] => none
  | (a, b) :: t => if a = k then some b else alookup k t

/-- Keys of an association list (the key set of the embedded Go map). -/
def akeys {β : Type} (l : List (String × β)) : List String :=
  l.map Prod.fst

/-- Hexadecimal digit, as used by strconv.Quote for small control bytes. -/
def hexDigit (n : Nat) : Char :=
  if n < 10 then Char.ofNat (48 + n) else Char.ofNat (87 + n)

/-- Embedding of the Go standard library strconv.Quote escaping of a single
character (ASCII-faithful: quote and backslash are backslash-escaped, the
named control escapes are produced, remaining control bytes become a
two-digit hex escape, every other character is kept verbatim).
strconv is outside the repository and is modelled only as far as the
canonical-key claims need. -/
def quoteChar (c : Char) : List Char :=
  if c = '"' then ['\\', '"']
  else if c = '\\' then ['\\', '\\']
  else if c = Char.ofNat 7 then ['\\', 'a']
  else if c = Char.ofNat 8 then ['\\', 'b']
  else if c = Char.ofNat 12 then ['\\', 'f']
  else if c = Char.ofNat 10 then ['\\', 'n']
  else if c = Char.ofNat 13 then ['\\', 'r']
  else if c = Char.ofNat 9 then ['\\', 't']
  else if c = Char.ofNat 11 then ['\\', 'v']
  else if c.toNat < 32 ∨ c.toNat = 127 then
    ['\\', 'x', hexDigit (c.toNat / 16), hexDigit (c.toNat % 16)]
  else [c]

/-- Embedding of strconv.Quote: the value wrapped in double quotes with
every character escaped by the standard convention. -/
def goQuote (s : String) : String :=
  String.mk ('"' :: (s.data.flatMap quoteChar) ++ ['"'])

/-- Lexicographic at-most comparison of character lists by code point.
UTF-8 preserves code-point order, so this is the order of the Go byte-wise
string comparison used by slices.Sort. -/
def lexLe : List Char → List Char → Bool
  | [], _ => true
  | _ :: _, [] => false
  | a :: as, b :: bs => if a = b then lexLe as bs else a.toNat < b.toNat

/-- Embedding of the Go string comparison s1 <= s2. -/
def goStrLe (a b : String) : Bool := lexLe a.data b.data

/-- Relation form of goStrLe, the sorting order of slices.Sort. -/
def goStrLeR (a b : String) : Prop := goStrLe a b = true

instance : DecidableRel goStrLeR := fun a b =>
  if h : goStrLe a b = true then .isTrue h else .isFalse h

/-- Embedding of labelsMapToString (src/client.go): collect the label names
in whatever order the Go map iteration yields them (the association-list
order here), sort them with slices.Sort, and render
left-brace k1="v1", k2="v2" right-brace, quoting each value with
strconv.Quote.  The input list stands for the Go map, so callers supply
lists with no duplicate keys. -/
def labelsMapToString (ls : List (String × String)) : String :=
  let lstrs := akeys ls
  let sorted := lstrs.insertionSort goStrLeR
  "\x7b" ++ String.intercalate ", "
      (sorted.map (fun l => l ++ "=" ++ goQuote ((alookup l ls).getD "")))
    ++ "\x7d"

/-- Rendering of an already-sorted labels list, written from the words of
the specification ("sort keys lexicographically and render as
left-brace k1="v1", k2="v2", ... right-brace"): the sorted pair list is
rendered directly, pair by pair. -/
def canonicalRenderSpec (ls : List (String × String)) : String :=
  "\x7b" ++ String.intercalate ", "
      (ls.map (fun p => p.1 ++ "=" ++ goQuote p.2)) ++ "\x7d"

/-! ## The batching worker (src/client.go, run) -/

/-- Embedding of push.Entry as far as the batching engine observes it:
timestamp (nanoseconds), log line and structured metadata. -/
structure Entry where
  timestamp : Int
  line : String
  metadata : List (String × String)
deriving DecidableEq, Repr

/-- Embedding of the batch type (src/client.go): a Go map from canonical
label string to the ordered entry list, as an association list. -/
abbrev Batch := List (String × List Entry)

/-- Embedding of the statement b[entry.Labels] = append(b[entry.Labels],
entry.Entries...): append the entries under the key, creating the key when
it is absent (a fresh Go map key, increasing len(b) by one). -/
def batchAppend (b : Batch) (l : String) (es : List Entry) : Batch :=
  if (alookup l b).isSome then
    b.map (fun p => if p.1 = l then (p.1, p.2 ++ es) else p)
  else
    b ++ [(l, es)]

/-- Events the run loop can select while the client is Open: an entry
arriving on the entries channel, or a tick of the staleness ticker.  The
quit signal ends the loop and is handled by runAll below. -/
inductive LoopEvent where
  | entry (l : String) (es : List Entry)
  | tick
deriving DecidableEq, Repr

/-- Worker state across loop iterations: the live batch map b, the list of
batches handed to send so far (each list element is one send call), and the
remaining staleness-timer budget (set to the full wait W by wait.Reset). -/
structure WState where
  b : Batch
  dispatched : List Batch
  timer : Nat
deriving DecidableEq, Repr

/-- Embedding of one iteration of the run main loop (src/client.go):
on an entry, append into the grouping map and, when len(b) has reached the
configured maxBatchSize N, send the batch, replace it with a fresh empty
map and reset the ticker; on a tick, send only when the batch is non-empty
and reset the ticker unconditionally. -/
def stepW (N W : Nat) (s : WState) : LoopEvent → WState
  | .entry l es =>
    let b := batchAppend s.b l es
    if N ≤ b.length then
      { b := [], dispatched := s.dispatched ++ [b], timer := W }
    else
      { s with b := b }
  | .tick =>
    if 0 < s.b.length then
      { b := [], dispatched := s.dispatched ++ [s.b], timer := W }
    else
      { s with timer := W }

/-- State of the worker after running the Open-phase loop on a sequence of
selected events, starting from the fresh batch map made at the top of run. -/
def runOpen (N W : Nat) (events : List LoopEvent) : WState :=
  events.foldl (stepW N W) { b := [], dispatched := [], timer := W }

/-- Embedding of the shutdown drain loop (for entry := range c.entries):
every entry still queued is appended into the live batch map, with no
size or timer trigger. -/
def drain (b : Batch) (queued : List (String × List Entry)) : Batch :=
  queued.foldl (fun b p => batchAppend b p.1 p.2) b

/-- Complete dispatch history of one worker life: the Open-phase loop runs
on its events, the quit signal breaks the loop, the drain loop consumes the
still-queued entries, and the final send is performed unconditionally —
its batch is the last element, even when empty. -/
def runAll (N W : Nat) (events : List LoopEvent)
    (queued : List (String × List Entry)) : List Batch :=
  let s := runOpen N W events
  s.dispatched ++ [drain s.b queued]

/-- Entries a list of loop events submits under one label, in order. -/
def submittedFor (l : String) (events : List LoopEvent) : List Entry :=
  events.flatMap fun
    | .entry l' es => if l' = l then es else []
    | .tick => []

/-- Entries a drain queue holds under one label, in order. -/
def queuedFor (l : String) (queued : List (String × List Entry)) : List Entry :=
  queued.flatMap fun p => if p.1 = l then p.2 else []

/-- Entries under one label across a list of dispatched batches, in
dispatch order. -/
def dispatchedFor (l : String) (ds : List Batch) : List Entry :=
  ds.flatMap fun b => (alookup l b).getD []

/-- Cases of the select statement at the top of the run main loop
(src/client.go).  The select has exactly three cases — the quit channel,
the entries channel and the ticker channel. -/
inductive RunCase where
  | quit
  | entry (l : String) (es : List Entry)
  | tick
deriving DecidableEq, Repr

/-- Enabled cases of the run-loop select, as a function of which channels
are ready.  Translated case by case from the select statement in run: it
receives from c.quit, c.entries and wait.C.  The flushReady argument
records whether a Flush caller is blocked sending on c.flush; no case of
the select receives from that channel, so the argument does not influence
the result. -/
def runSelectCases (quitReady : Bool) (entryReady : Option (String × List Entry))
    (tickReady : Bool) (_flushReady : Bool) : List RunCase :=
  (if quitReady then [RunCase.quit] else [])
    ++ (match entryReady with
        | some p => [RunCase.entry p.1 p.2]
        | none => [])
    ++ (if tickReady then [RunCase.tick] else [])

/-! ## The dispatcher (src/client.go, send) -/

/-- Error cases send can return, carrying the diagnostic detail the code
formats into the error value. -/
inductive SendError where
  | marshal (msg : String)
  | newRequest (msg : String)
  | transport (msg : String)
  | readBody (msg : String)
  | status (code : Int) (body : String)
  | closeBody (msg : String)
deriving DecidableEq, Repr

deriving instance DecidableEq for Except

/-- Observable outcome of the one HTTP round trip: status code, the result
of reading the response body, and the result of closing it. -/
structure HttpResponse where
  statusCode : Int
  bodyRead : Except String String
  closeResult : Option String
deriving DecidableEq, Repr

/-- Environment of one send call: the outcome of serialization
(json.Marshal or pushReq.Marshal), of http.NewRequest, and of the
transport round trip c.client.Do.  These are the external collaborators
of send; everything else in send is deterministic. -/
structure SendEnv where
  marshalResult : Option String
  newRequestResult : Option String
  doResult : Except String HttpResponse
deriving DecidableEq, Repr

/-- Embedding of send (src/client.go).  Returns the error outcome together
with a flag recording whether the transport call c.client.Do was made (the
network call).  Control flow is translated line by line: a serialization
failure (fmt-wrapped in the protobuf branch) or a request-construction
failure returns before any network call; then the request is performed
regardless of whether the batch is empty; a transport error is wrapped; a
status other than 204 reads the body and returns the status and body text
(or the read error); on 204 the body is closed, a close failure being the
last possible error. -/
def send (env : SendEnv) (useJSON : Bool) (_b : Batch) :
    Except SendError Unit × Bool :=
  match env.marshalResult with
  | some e =>
    (Except.error (.marshal (if useJSON then e
        else "unable to marshal PushRequest: " ++ e)), false)
  | none =>
  match env.newRequestResult with
  | some e => (Except.error (.newRequest e), false)
  | none =>
  match env.doResult with
  | .error e => (Except.error (.transport ("http request error: " ++ e)), true)
  | .ok resp =>
    if resp.statusCode ≠ 204 then
      match resp.bodyRead with
      | .error e => (Except.error (.readBody ("read response body: " ++ e)), true)
      | .ok body => (Except.error (.status resp.statusCode body), true)
    else
      match resp.closeResult with
      | some e =>
        (Except.error (.closeBody ("unable to close HTTP response body: " ++ e)), true)
      | none => (Except.ok (), true)

/-! ## Error-callback handling in run (src/client.go) -/

/-- Crash outcome of the worker goroutine. -/
inductive WorkerCrash where
  | nilCallbackCall
deriving DecidableEq, Repr

/-- Invocation of c.errCallback: calling a nil Go function value panics,
which here is the crash outcome; calling a configured callback succeeds. -/
def invokeCallback (cbConfigured : Bool) : Except WorkerCrash Unit :=
  if cbConfigured then Except.ok () else Except.error WorkerCrash.nilCallbackCall

/-- Embedding of the error handling at the bottom of the run main loop:
if err != nil && c.errCallback != nil then the callback is invoked. -/
def runLoopErrStep (cbConfigured : Bool) (sendErr : Option SendError) :
    Except WorkerCrash Unit :=
  if sendErr.isSome && cbConfigured then invokeCallback cbConfigured
  else Except.ok ()

/-- Embedding of the error handling after the final drain send in run:
if err != nil then c.errCallback(err) — with no nil check on the callback. -/
def runDrainErrStep (cbConfigured : Bool) (sendErr : Option SendError) :
    Except WorkerCrash Unit :=
  match sendErr with
  | some _ => invokeCallback cbConfigured
  | none => Except.ok ()

end Loki

namespace LokiSlog

/-! ## The slog handler layer (src/slog/handler.go, two variants) -/

/-- Byte length of a Go string, the meaning of len(s) in Go. -/
def goLen (s : String) : Nat := s.utf8ByteSize

/-- Embedding of the default LabelHandler installed by NewHandler in the
first handler variant: it ignores the group path and the attribute and
returns isLabel = false with no key overwrite, for every attribute. -/
def defaultLabelHandlerV1 (_groups : List String) (_key _render : String) :
    Bool × String :=
  (false, "")

/-- Embedding of the default MetadataHandler installed by NewHandler in the
second handler variant: metadata when the rendered value is longer than
1024 bytes (keeping the group path), otherwise metadata with the leading
segment stripped when the top-level group name is static_metadata,
otherwise not metadata.  Returns the group path to store under when the
attribute is metadata. -/
def defaultMetadataHandlerV2 (groups : List String) (render : String) :
    Option (List String) :=
  if 1024 < goLen render then some groups
  else if groups.head? = some "static_metadata" then some groups.tail
  else none

/-- Predicate of the claimed default policy, written from the words of the
specification: metadata when the rendered length exceeds 1024, or when the
top-level name of the enclosing group path equals the sentinel. -/
def claimedIsMetadata (groups : List String) (render : String) : Bool :=
  (1024 < goLen render) || (groups.head? == some "static_metadata")

/-- Claimed default classification, written from the words of the
specification: the metadata group path keeps the full path in the
over-length case and strips the leading sentinel segment in the
sentinel-group case; a label yields none. -/
def claimedDefaultClassification (groups : List String) (render : String) :
    Option (List String) :=
  if claimedIsMetadata groups render then
    some (if 1024 < goLen render then groups else groups.tail)
  else none

/-- Character class of the first character of the label-name regex
of the first handler variant: ASCII letters, underscore and colon. -/
def labelNameFirstChar (c : Char) : Bool :=
  c.isAlpha || c = Char.ofNat 95 || c = ':'

/-- Character class of the remaining characters of the label-name regex:
ASCII letters, digits, underscore and colon. -/
def labelNameRestChar (c : Char) : Bool :=
  labelNameFirstChar c || c.isDigit

/-- Embedding of lableNameRegex.Match (src/slog/handler.go, first
variant), the anchored regular expression of one leading name character
followed by name characters. -/
def labelNameMatch (s : String) : Bool :=
  match s.data with
  | [] => false
  | c :: rest => labelNameFirstChar c && rest.all labelNameRestChar

/-- Resolution of the GroupSplitter option by NewHandler in the first
handler variant: empty falls back to the underscore default, anything else
must match the label-name regex or construction fails. -/
def resolveGroupSplitterV1 (s : String) : Except String String :=
  if s = "" then Except.ok "_"
  else if labelNameMatch s then Except.ok s
  else Except.error "GroupSplitter not valid"

/-- Resolution of the GroupSplitter option by NewHandler in the second
handler variant: empty falls back to the dot default. -/
def resolveGroupSplitterV2 (s : String) : String :=
  if s = "" then "." else s

/-- Embedding of the leaf-key expression strings.Join(append(group,
key), splitter) shared by both handler variants, on the value read of the
group path. -/
def labelKey (group : List String) (sep key : String) : String :=
  String.intercalate sep (group ++ [key])

/-! ### Heap model of the Go slice holding the builder group path

The labelBuilder copy method clones the labels and metadata maps but not
the group slice, and withGroup appends to that slice.  A Go append writes
in place when the backing array has spare capacity, so derived builders
can share backing arrays.  Arrays live in an explicit heap; the length of
the stored array is its capacity (Go doubles the capacity of a small
slice when it reallocates). -/

/-- Heap of backing arrays; the list length of an array is its capacity. -/
abbrev Heap := List (List String)

/-- Go slice value: index of its backing array in the heap and its length. -/
structure GSlice where
  arr : Nat
  len : Nat
deriving DecidableEq, Repr

/-- Backing array of a heap index (empty for an out-of-heap index). -/
def heapArr (h : Heap) (i : Nat) : List String := (h[i]?).getD []

/-- Value a Go program observes when reading a slice. -/
def readSlice (h : Heap) (s : GSlice) : List String :=
  (heapArr h s.arr).take s.len

/-- Predicate that a slice is backed by the heap: its array exists and its
length does not exceed its capacity. -/
def soundSlice (h : Heap) (s : GSlice) : Prop :=
  s.arr < h.length ∧ s.len ≤ (heapArr h s.arr).length

instance (h : Heap) (s : GSlice) : Decidable (soundSlice h s) := by
  unfold soundSlice; infer_instance

/-- Embedding of Go append(s, x) for a string slice: with spare capacity
the element is written in place into the shared backing array; otherwise a
fresh array of doubled capacity (at least one) is allocated at the end of
the heap and the contents are copied. -/
def goAppend (h : Heap) (s : GSlice) (x : String) : Heap × GSlice :=
  let a := heapArr h s.arr
  if s.len < a.length then
    (h.set s.arr (a.set s.len x), ⟨s.arr, s.len + 1⟩)
  else
    let content := a.take s.len ++ [x]
    let newCap := max 1 (2 * s.len)
    (h ++ [content ++ List.replicate (newCap - content.length) ""],
     ⟨h.length, s.len + 1⟩)

/-- Embedding of the first-variant labelBuilder, with the group path held
as a heap-backed slice.  The labels and metadata maps are association
lists (the code clones them before every mutation, so value semantics is
faithful for them); the LabelHandler receives the group-path value, the
attribute key and its rendered value. -/
structure BuilderH where
  group : GSlice
  groupSplitter : String
  labels : List (String × String)
  metadata : List (String × String)
  handler : List String → String → String → Bool × String

/-- Embedding of a Go map assignment m[k] = v on an association list. -/
def insertMap (m : List (String × String)) (k v : String) :
    List (String × String) :=
  if (Loki.alookup k m).isSome then
    m.map (fun p => if p.1 = k then (p.1, v) else p)
  else m ++ [(k, v)]

/-- Embedding of the build method merge loop: every pair of the source map
is assigned into the destination map. -/
def mergeMap (dst src : List (String × String)) : List (String × String) :=
  src.foldl (fun d p => insertMap d p.1 p.2) dst

/-- Embedding of the labelBuilder copy method: copyMap clones the labels
and metadata maps (a contents-preserving fresh map, the identity on the
association-list value), while the group slice is copied only as a slice
header — the backing array stays shared.  That sharing is exactly what the
heap model records in the group field. -/
def copyH (b : BuilderH) : BuilderH :=
  { b with labels := b.labels, metadata := b.metadata }

/-- Embedding of newLabelBuilder: a builder with a nil group slice (a
fresh zero-capacity array), empty maps and the given splitter and policy. -/
def newLabelBuilderH (h : Heap) (sep : String)
    (handler : List String → String → String → Bool × String) :
    Heap × BuilderH :=
  (h ++ [[]],
   { group := ⟨h.length, 0⟩, groupSplitter := sep,
     labels := [], metadata := [], handler := handler })

/-- Embedding of the withGroup method (both variants have the same body):
copy the builder, then append the name to the group slice. -/
def withGroupH (h : Heap) (b : BuilderH) (name : String) : Heap × BuilderH :=
  let b := copyH b
  let hg := goAppend h b.group name
  (hg.1, { b with group := hg.2 })

/-- Attribute tree of the slog layer: a leaf carries its key and the
canonical rendering of its value (the code only ever consumes
attr.Value.String()), a group carries its key and its items. -/
inductive Attr where
  | scalar (key render : String)
  | group (key : String) (items : List Attr)

/-- Embedding of the loop body of the first-variant withAttrs method, one
attribute at a time.  A group attribute runs
b.withGroup(a.Key).withAttrs(a.Value.Group()).build(b.labels, b.metadata):
the derived builder (itself copied on entry to withAttrs) classifies the
nested items and its maps are merged back into the current maps.  A leaf
computes strings.Join(append(b.group, a.Key), b.groupSplitter) — the
append can write into spare capacity of the shared backing array — asks
the LabelHandler, honours a non-empty key overwrite for labels, and stores
the rendered value into the labels or the metadata map. -/
def goAttrsH : Heap → BuilderH → List Attr → Heap × BuilderH
  | h, b, [] => (h, b)
  | h, b, Attr.scalar key render :: rest =>
    let ha := goAppend h b.group key
    let joined := String.intercalate b.groupSplitter (readSlice ha.1 ha.2)
    let hl := b.handler (readSlice ha.1 b.group) key render
    let b' :=
      if hl.1 then
        { b with labels :=
            insertMap b.labels (if hl.2 ≠ "" then hl.2 else joined) render }
      else
        { b with metadata := insertMap b.metadata joined render }
    goAttrsH ha.1 b' rest
  | h, b, Attr.group name items :: rest =>
    let hg := withGroupH h b name
    let hd := goAttrsH hg.1 (copyH hg.2) items
    let b' := { b with
        labels := mergeMap b.labels (hd.2).labels,
        metadata := mergeMap b.metadata (hd.2).metadata }
    goAttrsH hd.1 b' rest

/-- Embedding of the first-variant withAttrs method: copy the builder,
then run the attribute loop. -/
def withAttrsH (h : Heap) (b : BuilderH) (attrs : List Attr) :
    Heap × BuilderH :=
  goAttrsH h (copyH b) attrs

/-- Agreement of two heaps from the viewpoint of one slice: the heap only
grows, every array below the index bound other than the slice's own
backing array is untouched, and on the slice's backing array the value
seen through the slice (its length prefix) and the capacity are
untouched. -/
def heapAgrees (m : Nat) (s : GSlice) (h h' : Heap) : Prop :=
  h.length ≤ h'.length
  ∧ (∀ j, j < m → j ≠ s.arr → heapArr h' j = heapArr h j)
  ∧ (heapArr h' s.arr).take s.len = (heapArr h s.arr).take s.len
  ∧ (heapArr h' s.arr).length = (heapArr h s.arr).length

/-! ### Concrete builder derivations sharing a backing array -/

/-- Fresh builder with the default splitter and first-variant default
policy, on an empty heap. -/
def cexRoot : Heap × BuilderH := newLabelBuilderH [] "_" defaultLabelHandlerV1

/-- Builder three groups deep: the third append doubles the capacity from
two to four, leaving one spare slot in the backing array. -/
def cexParent : Heap × BuilderH :=
  let s1 := withGroupH cexRoot.1 cexRoot.2 "g1"
  let s2 := withGroupH s1.1 s1.2 "g2"
  withGroupH s2.1 s2.2 "g3"

/-- First derived sibling of the shared parent. -/
def cexSib1 : Heap × BuilderH := withGroupH cexParent.1 cexParent.2 "x"

/-- Second derived sibling of the same parent, created after the first. -/
def cexSib2 : Heap × BuilderH := withGroupH cexSib1.1 cexParent.2 "y"

end LokiSlog

namespace Loki

/-- Environment in which every external step of send succeeds: the 204
response with an empty body and a clean close. -/
def benignEnv : SendEnv :=
  { marshalResult := none, newRequestResult := none,
    doResult := Except.ok { statusCode := 204, bodyRead := Except.ok "",
                            closeResult := none } }

/-- Environment in which serialization, request construction and the
transport all succeed with status 204, but closing the response body
fails. -/
def closeFailEnv : SendEnv :=
  { marshalResult := none, newRequestResult := none,
    doResult := Except.ok { statusCode := 204, bodyRead := Except.ok "",
                            closeResult := some "boom" } }

end Loki

/-! ## Theorems -/

namespace Loki

theorem char_toNat_inj {a b : Char} (h : a.toNat = b.toNat) : a = b :=
  StrictMono.injective (f := Char.toNat) (fun _ _ hlt => hlt) h

theorem lexLe_refl : ∀ as, lexLe as as = true
  | [] => rfl
  | a :: as => by simp [lexLe, lexLe_refl as]

theorem lexLe_total : ∀ as bs, lexLe as bs = true ∨ lexLe bs as = true
  | [], _ => Or.inl rfl
  | _ :: _, [] => Or.inr rfl
  | a :: as, b :: bs => by
    by_cases h : a = b
    · subst h
      simpa [lexLe] using lexLe_total as bs
    · have hne : a.toNat ≠ b.toNat := fun hn => h (char_toNat_inj hn)
      rcases Nat.lt_or_gt_of_ne hne with hlt | hgt
      · exact Or.inl (by simp [lexLe, h, hlt])
      · have hba : ¬ b = a := fun he => h he.symm
        exact Or.inr (by simp [lexLe, hba, hgt])

theorem lexLe_trans : ∀ as bs cs, lexLe as bs = true → lexLe bs cs = true →
    lexLe as cs = true
  | [], _, _, _, _ => rfl
  | _ :: _, [], _, h1, _ => by simp [lexLe] at h1
  | _ :: _, _ :: _, [], _, h2 => by simp [lexLe] at h2
  | a :: as, b :: bs, c :: cs, h1, h2 => by
    by_cases hab : a = b
    · subst hab
      by_cases hac : a = c
      · subst hac
        simp only [lexLe, if_pos rfl] at h1 h2 ⊢
        exact lexLe_trans as bs cs h1 h2
      · simpa [lexLe, hac] using (by simpa [lexLe, hac] using h2)
    · have h1' : a.toNat < b.toNat := by simpa [lexLe, hab] using h1
      by_cases hbc : b = c
      · subst hbc
        have hac : a ≠ b := hab
        simp [lexLe, hac, h1']
      · have h2' : b.toNat < c.toNat := by simpa [lexLe, hbc] using h2
        have hac : a.toNat < c.toNat := Nat.lt_trans h1' h2'
        have hne : a ≠ c := fun he => absurd (he ▸ hac) (Nat.lt_irrefl _)
        simp [lexLe, hne, hac]

theorem lexLe_antisymm : ∀ as bs, lexLe as bs = true → lexLe bs as = true →
    as = bs
  | [], [], _, _ => rfl
  | [], _ :: _, _, h2 => by simp [lexLe] at h2
  | _ :: _, [], h1, _ => by simp [lexLe] at h1
  | a :: as, b :: bs, h1, h2 => by
    by_cases hab : a = b
    · subst hab
      simp only [lexLe, if_pos rfl] at h1 h2
      rw [lexLe_antisymm as bs h1 h2]
    · have hba : ¬ b = a := fun he => hab he.symm
      have h1' : a.toNat < b.toNat := by simpa [lexLe, hab] using h1
      have h2' : b.toNat < a.toNat := by simpa [lexLe, hba] using h2
      exact absurd (Nat.lt_trans h1' h2') (Nat.lt_irrefl _)

theorem string_data_inj {a b : String} (h : a.data = b.data) : a = b := by
  cases a; cases b; exact congrArg String.mk h

theorem goStrLeR_total : ∀ a b : String, goStrLeR a b ∨ goStrLeR b a :=
  fun a b => lexLe_total a.data b.data

theorem goStrLeR_trans : ∀ a b c : String, goStrLeR a b → goStrLeR b c →
    goStrLeR a c :=
  fun a b c => lexLe_trans a.data b.data c.data

theorem goStrLeR_antisymm : ∀ a b : String, goStrLeR a b → goStrLeR b a →
    a = b :=
  fun _ _ h1 h2 => string_data_inj (lexLe_antisymm _ _ h1 h2)

theorem alookup_self {β : Type} :
    ∀ {ls : List (String × β)}, (ls.map Prod.fst).Nodup →
      ∀ {p : String × β}, p ∈ ls → alookup p.1 ls = some p.2 := by
  intro ls
  induction ls with
  | nil => intro _ p hp; cases hp
  | cons hd t ih =>
    intro hn p hp
    rcases List.mem_cons.mp hp with he | ht
    · subst he; simp [alookup]
    · have hne : hd.1 ≠ p.1 := by
        intro he
        have : p.1 ∈ t.map Prod.fst := List.mem_map_of_mem Prod.fst ht
        exact (List.nodup_cons.mp (by simpa using hn)).1 (he ▸ this)
      simp only [alookup, if_neg hne]
      exact ih (List.nodup_cons.mp (by simpa using hn)).2 ht

theorem alookup_perm {β : Type} :
    ∀ {l1 l2 : List (String × β)}, l1.Perm l2 →
      (l1.map Prod.fst).Nodup → ∀ k, alookup k l1 = alookup k l2 := by
  intro l1 l2 p
  induction p with
  | nil => intro _ k; rfl
  | cons x _ ih =>
    intro hn k
    by_cases h : x.1 = k
    · simp [alookup, h]
    · simp only [alookup, if_neg h]
      exact ih (List.nodup_cons.mp (by simpa using hn)).2 k
  | swap x y l =>
    intro hn k
    have hxy : y.1 ≠ x.1 := by
      have h' := hn
      simp only [List.map_cons, List.nodup_cons] at h'
      exact fun he => h'.1 (he ▸ List.mem_cons_self _ _)
    by_cases h1 : y.1 = k
    · have h2 : x.1 ≠ k := fun h2 => hxy (h1.trans h2.symm)
      simp [alookup, h1, h2]
    · by_cases h2 : x.1 = k
      · simp [alookup, h1, h2]
      · simp [alookup, h1, h2]
  | trans p1 _ ih1 ih2 =>
    intro hn k
    exact (ih1 hn k).trans (ih2 ((p1.map Prod.fst).nodup hn) k)

/-- C3.  The canonical label-set key sorts the label names
lexicographically and renders each pair as name="value" with the value
quoted by the standard convention, inside braces; consequently any two
insertion orders of the same label map canonicalize identically. -/
theorem labelsMapToString_canonical :
    (∀ ls : List (String × String), (akeys ls).Sorted goStrLeR →
        (akeys ls).Nodup → labelsMapToString ls = canonicalRenderSpec ls)
    ∧ ∀ l1 l2 : List (String × String), (akeys l1).Nodup → l1.Perm l2 →
        labelsMapToString l1 = labelsMapToString l2 := by
  constructor
  · intro ls hs hn
    unfold akeys at hs hn
    have hmap : ls.map ((fun l => l ++ "=" ++ goQuote ((alookup l ls).getD ""))
        ∘ Prod.fst) = ls.map (fun p => p.1 ++ "=" ++ goQuote p.2) := by
      apply List.map_congr_left
      intro p hp
      simp only [Function.comp]
      rw [alookup_self hn hp]
      rfl
    unfold labelsMapToString canonicalRenderSpec akeys
    simp only [List.Sorted.insertionSort_eq hs, List.map_map, hmap]
  · intro l1 l2 hn p
    have hk : (akeys l1).Perm (akeys l2) := p.map Prod.fst
    haveI : IsAntisymm String goStrLeR := ⟨goStrLeR_antisymm⟩
    haveI : IsTotal String goStrLeR := ⟨goStrLeR_total⟩
    haveI : IsTrans String goStrLeR := ⟨goStrLeR_trans⟩
    have hsort : (akeys l1).insertionSort goStrLeR
        = (akeys l2).insertionSort goStrLeR :=
      List.eq_of_perm_of_sorted
        (((List.perm_insertionSort _ _).trans hk).trans
          (List.perm_insertionSort _ _).symm)
        (List.sorted_insertionSort _ _) (List.sorted_insertionSort _ _)
    have hl : ∀ k, alookup k l1 = alookup k l2 := alookup_perm p hn
    unfold akeys at hsort
    unfold labelsMapToString akeys
    simp only [hsort, hl]

/-- Witness for C3 at concrete inputs: a sorted two-label map renders
directly, and the two insertion orders of the map a=1, b=2 canonicalize to
the same key string. -/
theorem labelsMapToString_canonical_witness :
    labelsMapToString [("a", "1"), ("b", "2")]
      = canonicalRenderSpec [("a", "1"), ("b", "2")]
    ∧ labelsMapToString [("a", "1"), ("b", "2")]
      = labelsMapToString [("b", "2"), ("a", "1")] :=
  ⟨labelsMapToString_canonical.1 [("a", "1"), ("b", "2")] (by decide)
      (by decide),
   labelsMapToString_canonical.2 [("a", "1"), ("b", "2")]
      [("b", "2"), ("a", "1")] (by decide) (by decide)⟩

end Loki

namespace Loki

theorem alookup_updMap (t : Batch) (l l' : String) (es : List Entry) :
    alookup l' (t.map (fun p => if p.1 = l then (p.1, p.2 ++ es) else p))
      = (alookup l' t).map (fun v => if l = l' then v ++ es else v) := by
  induction t with
  | nil => rfl
  | cons hd t ih =>
    obtain ⟨a, v⟩ := hd
    by_cases hal : a = l
    · subst hal
      have hhead : (if (a, v).1 = a then ((a, v).1, (a, v).2 ++ es)
          else (a, v)) = (a, v ++ es) := by
        simp
      rw [List.map_cons, hhead]
      by_cases hal' : a = l'
      · subst hal'
        simp [alookup, ih]
      · simp [alookup, hal', ih]
    · have hhead : (if (a, v).1 = l then ((a, v).1, (a, v).2 ++ es)
          else (a, v)) = (a, v) := by
        simp [hal]
      rw [List.map_cons, hhead]
      by_cases hal' : a = l'
      · subst hal'
        have hla : ¬ l = a := fun he => hal he.symm
        simp [alookup, hla]
      · simp [alookup, hal', ih]

theorem alookup_append_single (b : Batch) (l l' : String) (es : List Entry) :
    alookup l' (b ++ [(l, es)])
      = match alookup l' b with
        | some v => some v
        | none => if l = l' then some es else none := by
  induction b with
  | nil => simp [alookup]
  | cons hd t ih =>
    by_cases h : hd.1 = l' <;> simp [alookup, h, ih]

theorem alookup_batchAppend (b : Batch) (l : String) (es : List Entry)
    (l' : String) :
    (alookup l' (batchAppend b l es)).getD []
      = (alookup l' b).getD [] ++ if l = l' then es else [] := by
  by_cases hl : l = l'
  · subst hl
    by_cases hs : (alookup l b).isSome
    · rw [batchAppend, if_pos hs, alookup_updMap]
      obtain ⟨v, hv⟩ := Option.isSome_iff_exists.mp hs
      simp [hv]
    · rw [batchAppend, if_neg hs, alookup_append_single]
      have hn : alookup l b = none := Option.not_isSome_iff_eq_none.mp hs
      simp [hn]
  · by_cases hs : (alookup l b).isSome
    · rw [batchAppend, if_pos hs, alookup_updMap]
      cases hv : alookup l' b <;> simp [hv, hl]
    · rw [batchAppend, if_neg hs, alookup_append_single]
      cases hv : alookup l' b <;> simp [hv, hl]

theorem batchAppend_ne_nil (b : Batch) (l : String) (es : List Entry) :
    batchAppend b l es ≠ [] := by
  unfold batchAppend
  split
  · rename_i hs
    cases b with
    | nil => simp [alookup] at hs
    | cons hd t => simp
  · simp

theorem batchAppend_length_le (b : Batch) (l : String) (es : List Entry) :
    (batchAppend b l es).length ≤ b.length + 1 := by
  unfold batchAppend
  split
  · simp
  · simp

theorem dispatchedFor_append (l : String) (ds ds' : List Batch) :
    dispatchedFor l (ds ++ ds')
      = dispatchedFor l ds ++ dispatchedFor l ds' := by
  simp [dispatchedFor]

theorem runOpen_balance (N W : Nat) (l : String) :
    ∀ (events : List LoopEvent) (s : WState),
      dispatchedFor l (events.foldl (stepW N W) s).dispatched
          ++ (alookup l (events.foldl (stepW N W) s).b).getD []
        = dispatchedFor l s.dispatched ++ (alookup l s.b).getD []
          ++ submittedFor l events := by
  intro events
  induction events with
  | nil =>
    intro s
    simp [submittedFor]
  | cons e rest ih =>
    intro s
    rw [List.foldl_cons, ih (stepW N W s e)]
    have hstep : dispatchedFor l (stepW N W s e).dispatched
          ++ (alookup l (stepW N W s e).b).getD []
        = dispatchedFor l s.dispatched ++ (alookup l s.b).getD []
          ++ submittedFor l [e] := by
      cases e with
      | entry l0 es0 =>
        simp only [stepW]
        by_cases hd : N ≤ (batchAppend s.b l0 es0).length
        · rw [if_pos hd]
          simp [dispatchedFor_append, dispatchedFor, alookup,
            alookup_batchAppend, submittedFor, List.append_assoc]
        · rw [if_neg hd]
          simp [alookup_batchAppend, submittedFor, List.append_assoc]
      | tick =>
        simp only [stepW]
        by_cases hd : 0 < s.b.length
        · rw [if_pos hd]
          simp [dispatchedFor_append, dispatchedFor, alookup, submittedFor]
        · rw [if_neg hd]
          simp [submittedFor]
    have hsplit : submittedFor l (e :: rest)
        = submittedFor l [e] ++ submittedFor l rest := by
      simp [submittedFor]
    rw [hsplit]
    have h3 := congrArg (fun t => t ++ submittedFor l rest) hstep
    simp only [List.append_assoc] at h3
    simp only [List.append_assoc]
    exact h3

theorem drain_balance (l : String) :
    ∀ (queued : List (String × List Entry)) (b : Batch),
      (alookup l (drain b queued)).getD []
        = (alookup l b).getD [] ++ queuedFor l queued := by
  intro queued
  induction queued with
  | nil => intro b; simp [drain, queuedFor]
  | cons q rest ih =>
    intro b
    have : drain b (q :: rest) = drain (batchAppend b q.1 q.2) rest := by
      simp [drain]
    rw [this, ih, alookup_batchAppend]
    simp [queuedFor, List.append_assoc]

/-- C2.  Shutdown drains the queue and performs exactly one final
dispatch, and across the whole dispatch history every submitted entry
appears exactly once, per label and in submission order: the
concatenation of the dispatched entry lists under any label equals the
entries submitted under that label while Open followed by those drained
at shutdown. -/
theorem shutdownDrain_exactly_once (N W : Nat) (events : List LoopEvent)
    (queued : List (String × List Entry)) :
    (runAll N W events queued).length
        = (runOpen N W events).dispatched.length + 1
    ∧ ∀ l, dispatchedFor l (runAll N W events queued)
        = submittedFor l events ++ queuedFor l queued := by
  constructor
  · simp [runAll]
  · intro l
    have h1 := runOpen_balance N W l events
      { b := [], dispatched := [], timer := W }
    unfold runAll
    rw [dispatchedFor_append]
    have h2 : dispatchedFor l [drain (runOpen N W events).b queued]
        = (alookup l (drain (runOpen N W events).b queued)).getD [] := by
      simp [dispatchedFor]
    rw [h2, drain_balance, ← List.append_assoc]
    have h1' : dispatchedFor l (runOpen N W events).dispatched
        ++ (alookup l (runOpen N W events).b).getD []
        = submittedFor l events := by
      unfold runOpen
      simpa [dispatchedFor, alookup] using h1
    rw [h1']

/-- C5.  When appending an entry brings the number of distinct label-set
groups to the size threshold N, the worker dispatches that batch at once,
replaces the map by a fresh empty one and resets the staleness timer; as
a consequence, with a positive threshold the live batch map of any
reachable Open-phase state holds strictly fewer than N groups, so a batch
never admits an entry with a brand-new label set once N groups have
accumulated. -/
theorem sizeThreshold_dispatch (N W : Nat) :
    (∀ (s : WState) (l : String) (es : List Entry),
        N ≤ (batchAppend s.b l es).length →
        stepW N W s (.entry l es)
          = { b := [], dispatched := s.dispatched ++ [batchAppend s.b l es],
              timer := W })
    ∧ (1 ≤ N → ∀ events, (runOpen N W events).b.length < N) := by
  constructor
  · intro s l es h
    simp [stepW, h]
  · intro hN events
    suffices h : ∀ (evs : List LoopEvent) (s : WState), s.b.length < N →
        ((evs.foldl (stepW N W) s).b).length < N by
      exact h events _ (by simpa using hN)
    intro evs
    induction evs with
    | nil => intro s hs; simpa using hs
    | cons e rest ih =>
      intro s hs
      rw [List.foldl_cons]
      apply ih
      cases e with
      | entry l es =>
        simp only [stepW]
        by_cases hd : N ≤ (batchAppend s.b l es).length
        · simpa [hd] using hN
        · simpa [hd] using Nat.lt_of_not_le hd
      | tick =>
        simp only [stepW]
        by_cases hd : 0 < s.b.length
        · simpa [hd] using hN
        · simpa [hd] using hs

/-- Witness for C5: with threshold 1, the first entry fills the batch to
one group and the step dispatches it immediately with a reset timer, and
after any Open-phase run the live map stays below the threshold. -/
theorem sizeThreshold_dispatch_witness :
    stepW 1 7 { b := [], dispatched := [], timer := 3 }
        (.entry "a" [])
      = { b := [], dispatched := [[("a", [])]], timer := 7 }
    ∧ (runOpen 1 7 [LoopEvent.tick]).b.length < 1 :=
  ⟨(sizeThreshold_dispatch 1 7).1 { b := [], dispatched := [], timer := 3 }
      "a" [] (by decide),
   (sizeThreshold_dispatch 1 7).2 (by decide) [LoopEvent.tick]⟩

end Loki

namespace Loki

/-- C6 (amended).  At the size-threshold and timer triggers a dispatch is
only ever performed on a non-empty batch — every batch dispatched during
the Open phase is non-empty — while the final shutdown dispatch is
unconditional: whenever serialization and request construction succeed,
send performs the transport call regardless of the batch, so an empty
buffer at shutdown does generate a network call. -/
theorem openPhase_no_empty_dispatch :
    (∀ (N W : Nat) (events : List LoopEvent) (d : Batch),
        d ∈ (runOpen N W events).dispatched → d ≠ [])
    ∧ ∀ (env : SendEnv) (b : Batch), env.marshalResult = none →
        env.newRequestResult = none → (send env true b).2 = true := by
  constructor
  · intro N W events
    suffices h : ∀ (evs : List LoopEvent) (s : WState),
        (∀ d ∈ s.dispatched, d ≠ []) →
        ∀ d ∈ (evs.foldl (stepW N W) s).dispatched, d ≠ [] by
      exact h events _ (by simp)
    intro evs
    induction evs with
    | nil => intro s hs; simpa using hs
    | cons e rest ih =>
      intro s hs
      rw [List.foldl_cons]
      apply ih
      cases e with
      | entry l es =>
        simp only [stepW]
        by_cases hd : N ≤ (batchAppend s.b l es).length
        · rw [if_pos hd]
          intro d hdmem
          rcases List.mem_append.mp hdmem with h | h
          · exact hs d h
          · rw [List.mem_singleton.mp h]
            exact batchAppend_ne_nil s.b l es
        · rw [if_neg hd]
          exact hs
      | tick =>
        simp only [stepW]
        by_cases hd : 0 < s.b.length
        · rw [if_pos hd]
          intro d hdmem
          rcases List.mem_append.mp hdmem with h | h
          · exact hs d h
          · rw [List.mem_singleton.mp h]
            exact List.length_pos.mp hd
        · rw [if_neg hd]
          exact hs
  · intro env b h1 h2
    obtain ⟨m, nr, dr⟩ := env
    dsimp only at h1 h2
    subst h1
    subst h2
    cases dr with
    | error e => rfl
    | ok resp =>
      obtain ⟨code, br, cr⟩ := resp
      by_cases hc : code ≠ 204
      · cases br <;> simp [send, hc]
      · cases cr <;> simp [send, hc]

/-- Witness for C6 (amended): a concrete Open-phase dispatch is non-empty,
and the transport is invoked on the empty batch in the all-success
environment. -/
theorem openPhase_no_empty_dispatch_witness :
    ([("a", [])] : Batch) ≠ [] ∧ (send benignEnv true []).2 = true :=
  ⟨openPhase_no_empty_dispatch.1 1 1 [LoopEvent.entry "a" []] [("a", [])]
      (by decide),
   openPhase_no_empty_dispatch.2 benignEnv [] rfl rfl⟩

/-- Counterexample for C6 as stated: a worker that saw no entries at all
still dispatches once at shutdown — the dispatch history of the empty run
is exactly one empty batch — and send on an empty batch still performs the
transport call. -/
theorem emptyFinalDispatch_cex :
    runAll 5 1 [] [] = [[]] ∧ (send benignEnv true []).2 = true :=
  ⟨rfl, rfl⟩

/-- C8 (amended).  The outcome of send: success exactly when
serialization, request construction, the transport and the body close all
succeed and the status is 204; and whenever the request is made, a
non-204 status with a readable body yields the error carrying that status
code and body text. -/
theorem send_error_conditions (env : SendEnv) (useJSON : Bool) (b : Batch) :
    ((send env useJSON b).1 = Except.ok ()
      ↔ env.marshalResult = none ∧ env.newRequestResult = none
        ∧ ∃ resp, env.doResult = Except.ok resp ∧ resp.statusCode = 204
            ∧ resp.closeResult = none)
    ∧ ∀ resp body, env.marshalResult = none → env.newRequestResult = none →
        env.doResult = Except.ok resp → resp.statusCode ≠ 204 →
        resp.bodyRead = Except.ok body →
        (send env useJSON b).1
          = Except.error (SendError.status resp.statusCode body) := by
  obtain ⟨m, nr, dr⟩ := env
  constructor
  · cases m with
    | some e => simp [send]
    | none =>
      cases nr with
      | some e => simp [send]
      | none =>
        cases dr with
        | error e => simp [send]
        | ok resp =>
          obtain ⟨code, br, cr⟩ := resp
          by_cases hc : code = 204
          · subst hc
            cases cr with
            | none =>
              constructor
              · intro _
                exact ⟨rfl, rfl, ⟨⟨204, br, none⟩, rfl, rfl, rfl⟩⟩
              · intro _
                rfl
            | some e => cases br <;> simp [send]
          · cases br <;> simp [send, hc]
  · intro resp body h1 h2 hdr hcode hbody
    dsimp only at h1 h2 hdr
    subst h1
    subst h2
    subst hdr
    simp [send, hcode, hbody]

/-- Witness for C8 (amended): in the all-success environment send returns
no error, and a 500 response with body text yields exactly the
status-and-body error. -/
theorem send_error_conditions_witness :
    (send benignEnv true []).1 = Except.ok ()
    ∧ (send ⟨none, none, Except.ok ⟨500, Except.ok "oops", none⟩⟩ true []).1
        = Except.error (SendError.status 500 "oops") :=
  ⟨(send_error_conditions benignEnv true []).1.mpr
      ⟨rfl, rfl, ⟨⟨204, Except.ok "", none⟩, rfl, rfl, rfl⟩⟩,
   (send_error_conditions ⟨none, none,
        Except.ok ⟨500, Except.ok "oops", none⟩⟩ true []).2
      ⟨500, Except.ok "oops", none⟩ "oops" rfl rfl rfl (by decide) rfl⟩

/-- Counterexample for C8 as stated: with serialization, request
construction and the transport all succeeding and status 204, send still
returns an error when closing the response body fails, so "error only on
serialization failure, transport failure or non-204 status" is refuted. -/
theorem send_closeFail_cex :
    (send closeFailEnv true []).1
        = Except.error
            (SendError.closeBody "unable to close HTTP response body: boom")
    ∧ closeFailEnv.marshalResult = none
    ∧ closeFailEnv.newRequestResult = none
    ∧ closeFailEnv.doResult
        = Except.ok { statusCode := 204, bodyRead := Except.ok "",
                      closeResult := some "boom" } :=
  ⟨rfl, rfl, rfl, rfl⟩

/-- C10.  The error branch after the final drain send invokes the error
callback with no nil guard: with no callback configured it crashes the
worker, while the main-loop error branch guards against the nil callback
and never crashes, and the drain branch is safe whenever a callback is
configured. -/
theorem drainErrCallback_nil_unsafe :
    (∀ e : SendError, runDrainErrStep false (some e)
        = Except.error WorkerCrash.nilCallbackCall)
    ∧ (∀ r : Option SendError, runLoopErrStep false r = Except.ok ())
    ∧ (∀ r : Option SendError, runDrainErrStep true r = Except.ok ()) := by
  refine ⟨fun e => rfl, fun r => ?_, fun r => ?_⟩
  · cases r <;> rfl
  · cases r <;> rfl

/-- C1.  The select statement of the run main loop has no case receiving
from the flush channel: its enabled cases do not depend on whether a
Flush caller is blocked on that channel, and with only a flush signal
pending the worker has no enabled case at all, so the flush request is
never received and triggers no dispatch. -/
theorem runSelect_flush_never_received :
    (∀ (q : Bool) (e : Option (String × List Entry)) (t f1 f2 : Bool),
        runSelectCases q e t f1 = runSelectCases q e t f2)
    ∧ runSelectCases false none false true = [] :=
  ⟨fun _ _ _ _ _ => rfl, rfl⟩

end Loki

namespace LokiSlog

set_option maxRecDepth 8000 in
/-- C4.  The second-variant default MetadataHandler implements the claimed
policy exactly (metadata above 1024 bytes, or under the static_metadata
sentinel with the sentinel stripped, otherwise label; 1025 is metadata,
1024 is a label, the sentinel attribute f=1 lands at the stripped key),
while the first-variant default LabelHandler returns isLabel = false for
every attribute — routing even the plain top-level attribute a="b", which
the claimed policy classifies as a label, into metadata. -/
theorem defaultClassification_policy :
    (∀ (groups : List String) (render : String),
        defaultMetadataHandlerV2 groups render
          = claimedDefaultClassification groups render)
    ∧ (defaultMetadataHandlerV2 []
        (String.mk (List.replicate 1025 'a'))).isSome = true
    ∧ (defaultMetadataHandlerV2 []
        (String.mk (List.replicate 1024 'a'))).isSome = false
    ∧ defaultMetadataHandlerV2 ["static_metadata"] "1" = some []
    ∧ defaultLabelHandlerV1 [] "a" "b" = (false, "")
    ∧ claimedDefaultClassification [] "b" = none := by
  refine ⟨?_, by decide, by decide, by decide, rfl, by decide⟩
  intro groups render
  unfold defaultMetadataHandlerV2 claimedDefaultClassification
    claimedIsMetadata
  by_cases h1 : 1024 < goLen render
  · simp [h1]
  · by_cases h2 : groups.head? = some "static_metadata"
    · simp [h1, h2]
    · simp [h1, h2]

theorem take_set_of_le {α : Type} :
    ∀ (l : List α) (i : Nat) (x : α) (n : Nat), n ≤ i →
      (l.set i x).take n = l.take n := by
  intro l
  induction l with
  | nil => intro i x n _; simp
  | cons a t ih =>
    intro i x n hn
    cases i with
    | zero =>
      have : n = 0 := Nat.le_zero.mp hn
      subst this
      simp
    | succ i =>
      cases n with
      | zero => simp
      | succ n =>
        simp only [List.set_cons_succ, List.take_succ_cons]
        rw [ih i x n (Nat.le_of_succ_le_succ hn)]

theorem goAppend_pos (h : Heap) (s : GSlice) (x : String)
    (hlt : s.len < (heapArr h s.arr).length) :
    goAppend h s x
      = (h.set s.arr ((heapArr h s.arr).set s.len x), ⟨s.arr, s.len + 1⟩) := by
  simp only [goAppend, if_pos hlt]

theorem goAppend_neg (h : Heap) (s : GSlice) (x : String)
    (hge : ¬ s.len < (heapArr h s.arr).length) :
    goAppend h s x
      = (h ++ [((heapArr h s.arr).take s.len ++ [x])
            ++ List.replicate (max 1 (2 * s.len)
                  - ((heapArr h s.arr).take s.len ++ [x]).length) ""],
         ⟨h.length, s.len + 1⟩) := by
  simp only [goAppend, if_neg hge]

theorem goAppend_heap_length (h : Heap) (s : GSlice) (x : String) :
    h.length ≤ (goAppend h s x).1.length := by
  by_cases hlt : s.len < (heapArr h s.arr).length
  · rw [goAppend_pos h s x hlt]
    simp
  · rw [goAppend_neg h s x hlt]
    simp

theorem goAppend_result_len (h : Heap) (s : GSlice) (x : String) :
    (goAppend h s x).2.len = s.len + 1 := by
  by_cases hlt : s.len < (heapArr h s.arr).length
  · rw [goAppend_pos h s x hlt]
  · rw [goAppend_neg h s x hlt]

theorem goAppend_result_arr (h : Heap) (s : GSlice) (x : String) :
    (goAppend h s x).2.arr = s.arr ∨ (goAppend h s x).2.arr = h.length := by
  by_cases hlt : s.len < (heapArr h s.arr).length
  · rw [goAppend_pos h s x hlt]
    exact Or.inl rfl
  · rw [goAppend_neg h s x hlt]
    exact Or.inr rfl

theorem goAppend_preserves_other (h : Heap) (s : GSlice) (x : String)
    (j : Nat) (hj : j < h.length) (hne : j ≠ s.arr) :
    heapArr (goAppend h s x).1 j = heapArr h j := by
  by_cases hlt : s.len < (heapArr h s.arr).length
  · rw [goAppend_pos h s x hlt]
    have hns : ¬ s.arr = j := fun he => hne he.symm
    simp only [heapArr]
    rw [List.getElem?_set]
    simp [hns]
  · rw [goAppend_neg h s x hlt]
    simp only [heapArr]
    rw [List.getElem?_append_left hj]

theorem goAppend_prefix_preserved (h : Heap) (s : GSlice) (x : String)
    (harr : s.arr < h.length) (n : Nat) (hn : n ≤ s.len) :
    (heapArr (goAppend h s x).1 s.arr).take n
      = (heapArr h s.arr).take n := by
  by_cases hlt : s.len < (heapArr h s.arr).length
  · rw [goAppend_pos h s x hlt]
    simp only [heapArr]
    rw [List.getElem?_set]
    simp only [if_pos rfl, if_pos harr, Option.getD_some]
    exact take_set_of_le _ s.len x n hn
  · rw [goAppend_neg h s x hlt]
    simp only [heapArr]
    rw [List.getElem?_append_left harr]

theorem goAppend_capacity_preserved (h : Heap) (s : GSlice) (x : String)
    (harr : s.arr < h.length) :
    (heapArr (goAppend h s x).1 s.arr).length
      = (heapArr h s.arr).length := by
  by_cases hlt : s.len < (heapArr h s.arr).length
  · rw [goAppend_pos h s x hlt]
    simp only [heapArr]
    rw [List.getElem?_set]
    simp [harr]
  · rw [goAppend_neg h s x hlt]
    simp only [heapArr]
    rw [List.getElem?_append_left harr]

theorem goAppend_sound (h : Heap) (s : GSlice) (x : String)
    (hs : soundSlice h s) :
    soundSlice (goAppend h s x).1 (goAppend h s x).2 := by
  obtain ⟨h1, h2⟩ := hs
  by_cases hlt : s.len < (heapArr h s.arr).length
  · rw [goAppend_pos h s x hlt]
    constructor
    · simpa using h1
    · simp only [heapArr] at hlt ⊢
      rw [List.getElem?_set]
      simp [h1, List.getElem?_eq_getElem h1] at hlt ⊢
      omega
  · rw [goAppend_neg h s x hlt]
    have hlen : s.len = (heapArr h s.arr).length :=
      Nat.le_antisymm h2 (Nat.le_of_not_lt hlt)
    constructor
    · simp
    · simp only [heapArr, List.getElem?_concat_length, Option.getD_some]
      have htake : ((heapArr h s.arr).take s.len).length = s.len := by
        simp [hlen]
      simp only [List.length_append, List.length_replicate,
        List.length_singleton, htake]
      omega

end LokiSlog

namespace LokiSlog

theorem copyH_eq (b : BuilderH) : copyH b = b := rfl

theorem withGroupH_eq (h : Heap) (b : BuilderH) (name : String) :
    withGroupH h b name
      = ((goAppend h b.group name).1,
         { b with group := (goAppend h b.group name).2 }) := rfl

theorem readSlice_goAppend_self (h : Heap) (s : GSlice) (x : String)
    (hs : soundSlice h s) :
    readSlice (goAppend h s x).1 s = readSlice h s := by
  unfold readSlice
  exact goAppend_prefix_preserved h s x hs.1 s.len (Nat.le_refl _)

theorem heapArr_set (h : Heap) (i : Nat) (a : List String)
    (hi : i < h.length) : heapArr (h.set i a) i = a := by
  simp [heapArr, List.getElem?_set, hi]

theorem readSlice_goAppend_new (h : Heap) (s : GSlice) (x : String)
    (hs : soundSlice h s) :
    readSlice (goAppend h s x).1 (goAppend h s x).2
      = readSlice h s ++ [x] := by
  obtain ⟨h1, h2⟩ := hs
  by_cases hlt : s.len < (heapArr h s.arr).length
  · rw [goAppend_pos h s x hlt]
    have hset : heapArr (h.set s.arr ((heapArr h s.arr).set s.len x)) s.arr
        = (heapArr h s.arr).set s.len x := heapArr_set h s.arr _ h1
    simp only [readSlice, hset]
    rw [List.take_succ, take_set_of_le _ s.len x s.len (Nat.le_refl _)]
    rw [List.getElem?_set]
    simp [hlt]
  · rw [goAppend_neg h s x hlt]
    simp only [readSlice, heapArr, List.getElem?_concat_length,
      Option.getD_some]
    have harr2 : s.len ≤ ((h[s.arr]?).getD []).length := h2
    have hcl : (((h[s.arr]?).getD []).take s.len ++ [x]).length
        = s.len + 1 := by
      simp only [List.length_append, List.length_take,
        List.length_singleton]
      omega
    rw [List.take_append_of_le_length (by omega)]
    exact List.take_of_length_le (by omega)

theorem heapAgrees_refl (m : Nat) (s : GSlice) (h : Heap) :
    heapAgrees m s h h :=
  ⟨Nat.le_refl _, fun _ _ _ => rfl, rfl, rfl⟩

theorem heapAgrees_trans {m : Nat} {s : GSlice} {h1 h2 h3 : Heap}
    (a : heapAgrees m s h1 h2) (b : heapAgrees m s h2 h3) :
    heapAgrees m s h1 h3 := by
  obtain ⟨a1, a2, a3, a4⟩ := a
  obtain ⟨b1, b2, b3, b4⟩ := b
  refine ⟨a1.trans b1, ?_, ?_, ?_⟩
  · intro j hj hne
    rw [b2 j hj hne, a2 j hj hne]
  · rw [b3, a3]
  · rw [b4, a4]

theorem heapAgrees_sound {m : Nat} {s : GSlice} {h h' : Heap}
    (hp : heapAgrees m s h h') (hs : soundSlice h s) :
    soundSlice h' s :=
  ⟨Nat.lt_of_lt_of_le hs.1 hp.1, hp.2.2.2 ▸ hs.2⟩

theorem goAppend_heapAgrees (h : Heap) (s : GSlice) (x : String)
    (hs : soundSlice h s) :
    heapAgrees h.length s h (goAppend h s x).1 :=
  ⟨goAppend_heap_length h s x,
   fun j hj hne => goAppend_preserves_other h s x j hj hne,
   goAppend_prefix_preserved h s x hs.1 s.len (Nat.le_refl _),
   goAppend_capacity_preserved h s x hs.1⟩

theorem heapAgrees_of_derived {m : Nat} {g s : GSlice} {h1 h2 : Heap}
    (hp : heapAgrees m g h1 h2) (hlen : g.len = s.len + 1)
    (hcase : g.arr = s.arr ∨ (s.arr ≠ g.arr ∧ s.arr < m ∧ m ≤ g.arr)) :
    heapAgrees m s h1 h2 := by
  obtain ⟨p1, p2, p3, p4⟩ := hp
  rcases hcase with he | ⟨hne, hsm, hmg⟩
  · refine ⟨p1, ?_, ?_, ?_⟩
    · intro j hj hne
      exact p2 j hj (he ▸ hne)
    · rw [← he]
      have e1 : (heapArr h2 g.arr).take s.len
          = ((heapArr h2 g.arr).take g.len).take s.len := by
        rw [List.take_take]
        congr 1
        omega
      have e2 : (heapArr h1 g.arr).take s.len
          = ((heapArr h1 g.arr).take g.len).take s.len := by
        rw [List.take_take]
        congr 1
        omega
      rw [e1, e2, p3]
    · rw [← he, p4]
  · have hfull : heapArr h2 s.arr = heapArr h1 s.arr :=
      p2 s.arr hsm hne
    refine ⟨p1, ?_, ?_, ?_⟩
    · intro j hj hjne
      by_cases hjg : j = g.arr
      · exact absurd (hjg ▸ hj) (Nat.not_lt_of_le (hjg ▸ hmg))
      · exact p2 j hj hjg
    · rw [hfull]
    · rw [hfull]

end LokiSlog

namespace LokiSlog

theorem goAttrsH_heapAgrees :
    ∀ (n : Nat) (as : List Attr) (h : Heap) (b : BuilderH),
      sizeOf as ≤ n → soundSlice h b.group →
      heapAgrees h.length b.group h (goAttrsH h b as).1 := by
  intro n
  induction n using Nat.strong_induction_on with
  | _ n ihn =>
    intro as h b hsize hsound
    cases as with
    | nil =>
      simp only [goAttrsH]
      exact heapAgrees_refl _ _ _
    | cons a rest =>
      cases a with
      | scalar key render =>
        have hszr : sizeOf rest < n := by
          have hl := List.cons.sizeOf_spec (Attr.scalar key render) rest
          omega
        have hag1 := goAppend_heapAgrees h b.group key hsound
        have hsound1 : soundSlice (goAppend h b.group key).1 b.group :=
          heapAgrees_sound hag1 hsound
        suffices hcont : ∀ c : BuilderH, c.group = b.group →
            heapAgrees h.length b.group h
              (goAttrsH (goAppend h b.group key).1 c rest).1 by
          simp only [goAttrsH]
          exact hcont _ (by split <;> rfl)
        intro c hcg
        have ihr := ihn (sizeOf rest) hszr rest (goAppend h b.group key).1 c
          (Nat.le_refl _) (by rw [hcg]; exact hsound1)
        rw [hcg] at ihr
        have ihr' : heapAgrees h.length b.group (goAppend h b.group key).1
            (goAttrsH (goAppend h b.group key).1 c rest).1 := by
          obtain ⟨i1, i2, i3, i4⟩ := ihr
          exact ⟨i1, fun j hj hne =>
            i2 j (Nat.lt_of_lt_of_le hj hag1.1) hne, i3, i4⟩
        exact heapAgrees_trans hag1 ihr'
      | group name items =>
        have hszi : sizeOf items < n := by
          have hl := List.cons.sizeOf_spec (Attr.group name items) rest
          have hg := Attr.group.sizeOf_spec name items
          omega
        have hszr : sizeOf rest < n := by
          have hl := List.cons.sizeOf_spec (Attr.group name items) rest
          omega
        have hag1 := goAppend_heapAgrees h b.group name hsound
        have hsound1 : soundSlice (goAppend h b.group name).1 b.group :=
          heapAgrees_sound hag1 hsound
        have hgsound : soundSlice (goAppend h b.group name).1
            (goAppend h b.group name).2 :=
          goAppend_sound h b.group name hsound
        have ihi := ihn (sizeOf items) hszi items (goAppend h b.group name).1
          (copyH { b with group := (goAppend h b.group name).2 })
          (Nat.le_refl _) hgsound
        have ihi' : heapAgrees h.length b.group (goAppend h b.group name).1
            (goAttrsH (goAppend h b.group name).1
              (copyH { b with group := (goAppend h b.group name).2 })
              items).1 := by
          apply heapAgrees_of_derived (g := (goAppend h b.group name).2)
          · obtain ⟨i1, i2, i3, i4⟩ := ihi
            exact ⟨i1, fun j hj hne =>
              i2 j (Nat.lt_of_lt_of_le hj hag1.1) hne, i3, i4⟩
          · exact goAppend_result_len h b.group name
          · rcases goAppend_result_arr h b.group name with he | he
            · exact Or.inl he
            · refine Or.inr ⟨?_, hsound.1, ?_⟩
              · rw [he]
                exact Nat.ne_of_lt hsound.1
              · rw [he]
        have hsound2 : soundSlice
            (goAttrsH (goAppend h b.group name).1
              (copyH { b with group := (goAppend h b.group name).2 })
              items).1 b.group :=
          heapAgrees_sound ihi' hsound1
        suffices hcont : ∀ c : BuilderH, c.group = b.group →
            heapAgrees h.length b.group h
              (goAttrsH
                (goAttrsH (goAppend h b.group name).1
                  (copyH { b with group := (goAppend h b.group name).2 })
                  items).1 c rest).1 by
          simp only [goAttrsH]
          exact hcont _ rfl
        intro c hcg
        have ihr := ihn (sizeOf rest) hszr rest
          (goAttrsH (goAppend h b.group name).1
            (copyH { b with group := (goAppend h b.group name).2 })
            items).1 c (Nat.le_refl _) (by rw [hcg]; exact hsound2)
        rw [hcg] at ihr
        have ihr' : heapAgrees h.length b.group
            (goAttrsH (goAppend h b.group name).1
              (copyH { b with group := (goAppend h b.group name).2 })
              items).1
            (goAttrsH
              (goAttrsH (goAppend h b.group name).1
                (copyH { b with group := (goAppend h b.group name).2 })
                items).1 c rest).1 := by
          obtain ⟨i1, i2, i3, i4⟩ := ihr
          refine ⟨i1, fun j hj hne => i2 j ?_ hne, i3, i4⟩
          exact Nat.lt_of_lt_of_le hj (Nat.le_trans hag1.1 ihi.1)
        exact heapAgrees_trans hag1 (heapAgrees_trans ihi' ihr')

end LokiSlog

namespace LokiSlog

/-- C7 (amended).  withGroup and withAttrs return a new builder and leave
the receiver itself untouched: the receiver's labels and metadata maps are
cloned before any write, and the receiver's observable group path (the
length prefix of its backing array) is never overwritten by a derivation.
The stronger claim that derived siblings cannot interfere with each other
fails: copy does not clone the group slice, so siblings share its backing
array (see the interference counterexample). -/
theorem builder_receiver_unchanged (h : Heap) (b : BuilderH) (name : String)
    (attrs : List Attr) (hs : soundSlice h b.group) :
    readSlice (withGroupH h b name).1 b.group = readSlice h b.group
    ∧ (withGroupH h b name).2.labels = b.labels
    ∧ (withGroupH h b name).2.metadata = b.metadata
    ∧ readSlice (withAttrsH h b attrs).1 b.group = readSlice h b.group := by
  refine ⟨?_, rfl, rfl, ?_⟩
  · exact readSlice_goAppend_self h b.group name hs
  · have hp := goAttrsH_heapAgrees (sizeOf attrs) attrs h (copyH b)
      (Nat.le_refl _) hs
    exact hp.2.2.1

/-- Witness for C7 (amended): deriving from the three-group builder by
withGroup or withAttrs leaves the parent's observed group path intact. -/
theorem builder_receiver_unchanged_witness :
    readSlice (withGroupH cexParent.1 cexParent.2 "x").1 cexParent.2.group
      = readSlice cexParent.1 cexParent.2.group
    ∧ readSlice (withAttrsH cexParent.1 cexParent.2
        [Attr.scalar "k" "v"]).1 cexParent.2.group
      = readSlice cexParent.1 cexParent.2.group :=
  ⟨(builder_receiver_unchanged cexParent.1 cexParent.2 "x"
      [Attr.scalar "k" "v"] (by decide)).1,
   (builder_receiver_unchanged cexParent.1 cexParent.2 "x"
      [Attr.scalar "k" "v"] (by decide)).2.2.2⟩

/-- Counterexample for C7 as stated: two siblings derived from the same
three-group parent share the parent's backing array, which has one spare
slot; the second derivation overwrites it, changing the first sibling's
observed group path from g1,g2,g3,x to g1,g2,g3,y — derived builders do
interfere with each other. -/
theorem builder_sibling_interference_cex :
    readSlice cexSib1.1 cexSib1.2.group = ["g1", "g2", "g3", "x"]
    ∧ readSlice cexSib2.1 cexSib1.2.group = ["g1", "g2", "g3", "y"] := by
  constructor <;> decide

/-- C9 (amended).  A leaf attribute is stored under the key built by
joining the group-path segments and the leaf name with the configured
separator (for the label map when the policy says label, for the metadata
map otherwise); the first handler variant falls back to the underscore
separator when none is configured (giving a_b_c for path a,b and leaf c),
while the second variant falls back to the dot separator. -/
theorem leafKey_construction (h : Heap) (b : BuilderH) (key render : String)
    (hs : soundSlice h b.group) :
    (b.handler (readSlice h b.group) key render = (true, "") →
      (goAttrsH h b [Attr.scalar key render]).2.labels
        = insertMap b.labels
            (labelKey (readSlice h b.group) b.groupSplitter key) render)
    ∧ (b.handler (readSlice h b.group) key render = (false, "") →
      (goAttrsH h b [Attr.scalar key render]).2.metadata
        = insertMap b.metadata
            (labelKey (readSlice h b.group) b.groupSplitter key) render)
    ∧ resolveGroupSplitterV1 "" = Except.ok "_"
    ∧ labelKey ["a", "b"] "_" "c" = "a_b_c" := by
  have hself := readSlice_goAppend_self h b.group key hs
  have hnew := readSlice_goAppend_new h b.group key hs
  refine ⟨?_, ?_, rfl, by decide⟩
  · intro hh
    simp only [goAttrsH]
    rw [hself, hh]
    simp [labelKey, hnew]
  · intro hh
    simp only [goAttrsH]
    rw [hself, hh]
    simp [labelKey, hnew]

/-- Witness for C9 (amended): on the three-group builder with the
underscore separator and the first-variant default policy, the leaf c is
stored in metadata under the joined key. -/
theorem leafKey_construction_witness :
    (goAttrsH cexParent.1 cexParent.2 [Attr.scalar "c" "v"]).2.metadata
      = insertMap cexParent.2.metadata
          (labelKey (readSlice cexParent.1 cexParent.2.group)
            cexParent.2.groupSplitter "c") "v" :=
  (leafKey_construction cexParent.1 cexParent.2 "c" "v" (by decide)).2.1 rfl

/-- Counterexample for C9 as stated: the second handler variant resolves
an unset GroupSplitter to the dot, so by default path a,b with leaf c is
stored as a.b.c there, not a_b_c. -/
theorem groupSplitter_default_cex :
    resolveGroupSplitterV2 "" = "."
    ∧ labelKey ["a", "b"] (resolveGroupSplitterV2 "") "c" = "a.b.c"
    ∧ "a.b.c" ≠ "a_b_c" :=
  ⟨rfl, rfl, by decide⟩

end LokiSlog
